import Mathlib

/-!
Verification development for the pns-datamine sprite tooling.

The embedding covers the two algorithmic sources:
  reconstruct_sprites.py  (diced-sprite reconstruction), and
  composite_portraits.py  (hierarchy resolution, grouping, variants,
  portrait compositing).

Floating-point values from the asset files are modelled as exact
rationals; Python `round` (banker rounding, half to even) is modelled by
`pyRound`.  Image operations are abstracted to the sequence of crop and
paste (blit) operations they perform, keeping all region arithmetic
exact.
-/

/-- Python `round` on a real value: nearest integer, ties to even.
`int(round(x))` in the sources is exactly this (the outer `int` is the
identity on the integer that `round` already returns). -/
def pyRound (q : ℚ) : ℤ :=
  let n := ⌊q⌋
  let r := q - (n : ℚ)
  if r < 1 / 2 then n
  else if 1 / 2 < r then n + 1
  else if n % 2 = 0 then n else n + 1

/-! ## reconstruct_sprites.py -/

/-- One byte of an index buffer. -/
abbrev Byte := Fin 256

/-- Consecutive pairs of bytes as little-endian uint16 values
(`struct.unpack` of `n` `H` values reads pairs in order). -/
def u16Pairs : List Byte → List Nat
  | b0 :: b1 :: rest => (b0.val + 256 * b1.val) :: u16Pairs rest
  | _ => []

/-- `struct.unpack(f"<{n}H", bs)` with `n = len(bs) // 2`: the format
size `2 * n` must equal the buffer size exactly, so an odd-length buffer
raises `struct.error` (modelled as `none`). -/
def unpackIndices (bs : List Byte) : Option (List Nat) :=
  if bs.length % 2 = 0 then some (u16Pairs bs) else none

/-- The quad loop of `iter_quads`: for each full group of six indices
`(a, b, c, _c2, d, _a2)` yield `(a, b, c, d)`; a trailing partial group
is ignored (`range(n // 6)`). -/
def quadsOf : List Nat → List (Nat × Nat × Nat × Nat)
  | a :: b :: c :: _c2 :: d :: _a2 :: rest => (a, b, c, d) :: quadsOf rest
  | _ => []

/-- `iter_quads(index_buffer_bytes)`: decode the uint16 list, then yield
one quad per group of six indices.  `none` models the `struct.error`
raised on an odd-length buffer. -/
def iterQuads (bs : List Byte) : Option (List (Nat × Nat × Nat × Nat)) :=
  (unpackIndices bs).map quadsOf

/-- One parsed vertex: position x, y and uv u, v (`parse_vertices`
output tuples). -/
structure Vertex where
  px : ℚ
  py : ℚ
  u : ℚ
  v : ℚ
deriving DecidableEq

/-- `m_Rect` of a sprite. -/
structure SRect where
  x : ℚ
  y : ℚ
  width : ℚ
  height : ℚ
deriving DecidableEq

/-- Python `min` over a nonempty list (left fold of binary min); the
sources only apply it to four-element lists. -/
def listMin (l : List ℚ) : ℚ :=
  match l with
  | [] => 0
  | x :: xs => xs.foldl min x

/-- Python `max` over a nonempty list (left fold of binary max). -/
def listMax (l : List ℚ) : ℚ :=
  match l with
  | [] => 0
  | x :: xs => xs.foldl max x

/-- The eight rounded region bounds computed per quad inside
`reconstruct_sprite`. -/
structure QuadBounds where
  dstL : ℤ
  dstT : ℤ
  dstR : ℤ
  dstB : ℤ
  srcL : ℤ
  srcT : ℤ
  srcR : ℤ
  srcB : ℤ
deriving DecidableEq

/-- The per-quad bound computation of `reconstruct_sprite` (lines
128-149): position bounds translated by `-rect.x`, flipped vertically
against the rounded canvas height `canvasH`; uv bounds scaled by the
atlas size `tw × th` with v flipped. -/
def quadBounds (rect : SRect) (canvasH : ℤ) (tw th : ℚ)
    (v1 v2 v3 v4 : Vertex) : QuadBounds :=
  let xs := [v1.px, v2.px, v3.px, v4.px]
  let ys := [v1.py, v2.py, v3.py, v4.py]
  let posX0 := listMin xs
  let posX1 := listMax xs
  let posY0 := listMin ys
  let posY1 := listMax ys
  let us := [v1.u, v2.u, v3.u, v4.u]
  let vs := [v1.v, v2.v, v3.v, v4.v]
  let u0 := listMin us
  let u1 := listMax us
  let vv0 := listMin vs
  let vv1 := listMax vs
  { dstL := pyRound (posX0 - rect.x)
    dstT := pyRound ((canvasH : ℚ) - (posY1 - rect.y))
    dstR := pyRound (posX1 - rect.x)
    dstB := pyRound ((canvasH : ℚ) - (posY0 - rect.y))
    srcL := pyRound (u0 * tw)
    srcT := pyRound ((1 - vv1) * th)
    srcR := pyRound (u1 * tw)
    srcB := pyRound ((1 - vv0) * th) }

/-- Region bounds written exactly as the specification states them:
destination equals the axis-aligned bounding box of the four vertex
positions translated horizontally by `-rect.x` and flipped vertically
(`dstT = canvasH - (maxY - rect.y)`, `dstB = canvasH - (minY - rect.y)`),
and source equals the bounding box of the four uvs scaled by the atlas
dimensions with v flipped (`srcT = (1 - maxV) * th`,
`srcB = (1 - minV) * th`); bounds are rounded to integer pixels. -/
def specQuadBounds (rect : SRect) (canvasH : ℤ) (tw th : ℚ)
    (v1 v2 v3 v4 : Vertex) : QuadBounds :=
  let minX := min (min (min v1.px v2.px) v3.px) v4.px
  let maxX := max (max (max v1.px v2.px) v3.px) v4.px
  let minY := min (min (min v1.py v2.py) v3.py) v4.py
  let maxY := max (max (max v1.py v2.py) v3.py) v4.py
  let minU := min (min (min v1.u v2.u) v3.u) v4.u
  let maxU := max (max (max v1.u v2.u) v3.u) v4.u
  let minV := min (min (min v1.v v2.v) v3.v) v4.v
  let maxV := max (max (max v1.v v2.v) v3.v) v4.v
  { dstL := pyRound (minX - rect.x)
    dstT := pyRound ((canvasH : ℚ) - (maxY - rect.y))
    dstR := pyRound (maxX - rect.x)
    dstB := pyRound ((canvasH : ℚ) - (minY - rect.y))
    srcL := pyRound (minU * tw)
    srcT := pyRound ((1 - maxV) * th)
    srcR := pyRound (maxU * tw)
    srcB := pyRound ((1 - minV) * th) }

/-- One blit performed on the canvas: the atlas crop box, the paste
position, and the pasted tile size (after the nearest-neighbour resize
that is applied whenever the rounded source and destination sizes
differ). -/
structure PasteOp where
  src : ℤ × ℤ × ℤ × ℤ
  dst : ℤ × ℤ
  size : ℤ × ℤ
deriving DecidableEq

/-- The body of the quad loop of `reconstruct_sprite`: compute the
rounded bounds, skip the quad (`continue`) when the destination or the
source box is degenerate, otherwise crop and paste. -/
def processQuad (rect : SRect) (canvasH : ℤ) (tw th : ℚ)
    (v1 v2 v3 v4 : Vertex) : Option PasteOp :=
  let b := quadBounds rect canvasH tw th v1 v2 v3 v4
  if b.dstR ≤ b.dstL ∨ b.dstB ≤ b.dstT ∨ b.srcR ≤ b.srcL ∨ b.srcB ≤ b.srcT then
    none
  else
    some { src := (b.srcL, b.srcT, b.srcR, b.srcB)
           dst := (b.dstL, b.dstT)
           size := (b.dstR - b.dstL, b.dstB - b.dstT) }

/-- `reconstruct_sprite` abstracted to the list of blits it performs on
the fresh canvas, in quad order.  `none` models an exception escaping
the function (odd index buffer, or a quad index outside the vertex
list), which `process_bundle` catches per sprite. -/
def reconstructSprite (rect : SRect) (tw th : ℚ) (verts : List Vertex)
    (idxBytes : List Byte) : Option (List PasteOp) := do
  let canvasH := pyRound rect.height
  let quads ← iterQuads idxBytes
  let ops ← quads.mapM (fun q =>
    match verts.get? q.1, verts.get? q.2.1, verts.get? q.2.2.1, verts.get? q.2.2.2 with
    | some a, some b, some c, some d => some (processQuad rect canvasH tw th a b c d)
    | _, _, _, _ => none)
  some (ops.filterMap id)

/-! ## composite_portraits.py: hierarchy and world positions -/

/-- One record of the `transforms` dict built by `build_transform_tree`:
game-object name, parent path id (`0` = none), ordered child path ids,
and the local x, y offset. -/
structure TNode where
  goName : String
  parent : ℤ
  children : List ℤ
  lp : ℚ × ℚ
deriving DecidableEq

/-- The transform set: path id to node, in insertion order, keys
unique (Python dict keyed by object path id). -/
abbrev Transforms := List (ℤ × TNode)

/-- Dict lookup `transforms.get(pid)`. -/
def lookupT (ts : Transforms) (pid : ℤ) : Option TNode :=
  (ts.find? (fun e => decide (e.1 = pid))).map (·.2)

/-- The memo dict of `_world_pos`. -/
abbrev WMemo := List (ℤ × (ℚ × ℚ))

/-- Memo lookup. -/
def lookupM (memo : WMemo) (pid : ℤ) : Option (ℚ × ℚ) :=
  (memo.find? (fun e => decide (e.1 = pid))).map (·.2)

/-- Reference denotation of `_world_pos` without the memo table: walk up
the parent chain summing local offsets.  The recursion of the source has
no termination argument (a cyclic parent chain recurses forever), so the
embedding spends one unit of `fuel` per parent step and returns `none`
when the chain has not bottomed out within `fuel` steps. -/
def worldPosFuel : Nat → Transforms → ℤ → Option (ℚ × ℚ)
  | 0, _, _ => none
  | fuel + 1, ts, pid =>
    match lookupT ts pid with
    | none => some (0, 0)
    | some t =>
      if t.parent = 0 ∨ lookupT ts t.parent = none then some t.lp
      else
        match worldPosFuel fuel ts t.parent with
        | none => none
        | some p => some (p.1 + t.lp.1, p.2 + t.lp.2)

/-- `_world_pos(pid, transforms, memo)` (lines 102-117): return the
memoized value when present; otherwise missing nodes resolve to (0, 0),
a node whose parent is 0 or absent returns its own local offset, and any
other node adds its local offset to the recursively resolved parent
position; the result is stored in the memo before returning.  Fuel
bounds the unmemoized recursion depth exactly as in `worldPosFuel`. -/
def worldPosMemo : Nat → Transforms → ℤ → WMemo → Option (ℚ × ℚ) × WMemo
  | 0, _, _, memo => (none, memo)
  | fuel + 1, ts, pid, memo =>
    match lookupM memo pid with
    | some r => (some r, memo)
    | none =>
      match lookupT ts pid with
      | none => (some (0, 0), (pid, ((0 : ℚ), (0 : ℚ))) :: memo)
      | some t =>
        if t.parent = 0 ∨ lookupT ts t.parent = none then
          (some t.lp, (pid, t.lp) :: memo)
        else
          match worldPosMemo fuel ts t.parent memo with
          | (none, memo') => (none, memo')
          | (some p, memo') =>
            let r := (p.1 + t.lp.1, p.2 + t.lp.2)
            (some r, (pid, r) :: memo')

/-- A memo table is good when every entry equals the value the
unmemoized recursion computes for its node. -/
def GoodMemo (ts : Transforms) (memo : WMemo) : Prop :=
  ∀ p r, lookupM memo p = some r → ∃ g, worldPosFuel g ts p = some r

/-- `find_node`: first path id whose node carries the given name, in
insertion order. -/
def findNode (ts : Transforms) (name : String) : Option ℤ :=
  (ts.find? (fun e => e.2.goName == name)).map (·.1)

/-- `children_names`: the (id, name) pairs of the children of `pid`
that are present in the transform set, in child order. -/
def childrenNames (ts : Transforms) (pid : ℤ) : List (ℤ × String) :=
  match lookupT ts pid with
  | none => []
  | some t => t.children.filterMap (fun c => (lookupT ts c).map (fun tc => (c, tc.goName)))

/-- The chain example: root node A (parent 0) with offset (1, 0), child
B with offset (0, 2), grandchild C with offset (3, 0). -/
def chainTransforms : Transforms :=
  [((1 : ℤ), ⟨"A", 0, [2], ((1 : ℚ), (0 : ℚ))⟩),
   ((2 : ℤ), ⟨"B", 1, [3], ((0 : ℚ), (2 : ℚ))⟩),
   ((3 : ℤ), ⟨"C", 2, [], ((3 : ℚ), (0 : ℚ))⟩)]

/-- A two-node parent cycle: 1 is the parent of 2 and 2 the parent
of 1. -/
def cycleTransforms : Transforms :=
  [((1 : ℤ), ⟨"a", 2, [], ((1 : ℚ), (0 : ℚ))⟩),
   ((2 : ℤ), ⟨"b", 1, [], ((0 : ℚ), (1 : ℚ))⟩)]

/-! ## composite_portraits.py: expression name parsing -/

/-- Python `\w` on the ASCII names involved: letters, digits,
underscore. -/
def isWordChar (c : Char) : Bool :=
  c.isAlphanum || c == '_'

/-- The eye frame tag pattern `[a-z]\d+`: one lowercase letter followed
by one or more digits, consuming the whole remainder. -/
def eyeFrameTag : List Char → Bool
  | c :: ds => c.isLower && !ds.isEmpty && ds.all (·.isDigit)
  | [] => false

/-- Lazy scan for `(\w+?)_([a-z]\d+)` after the `e_` prefix: take the
shortest nonempty word-character run such that an underscore and a
frame tag complete the string, as the non-greedy `\w+?` does. -/
def eyeScan (tAcc : List Char) : List Char → Option (List Char × List Char)
  | [] => none
  | c :: rest =>
    if c == '_' && !tAcc.isEmpty && eyeFrameTag rest then
      some (tAcc.reverse, rest)
    else if isWordChar c then eyeScan (c :: tAcc) rest
    else none

/-- `parse_eye_name`: full match of `(e_\w+?)_([a-z]\d+)`, returning
(base, frame). -/
def parseEyeName (name : String) : Option (String × String) :=
  match name.data with
  | 'e' :: '_' :: rest =>
    (eyeScan [] rest).map (fun p => (String.mk ('e' :: '_' :: p.1), String.mk p.2))
  | _ => none

/-- The mouth frame tag pattern `\d+`: one or more digits consuming the
whole remainder. -/
def mouthFrameTag (cs : List Char) : Bool :=
  !cs.isEmpty && cs.all (·.isDigit)

/-- Lazy scan for `(\w+?)_(\d+)` after the `m_` prefix. -/
def mouthScan (tAcc : List Char) : List Char → Option (List Char × List Char)
  | [] => none
  | c :: rest =>
    if c == '_' && !tAcc.isEmpty && mouthFrameTag rest then
      some (tAcc.reverse, rest)
    else if isWordChar c then mouthScan (c :: tAcc) rest
    else none

/-- `parse_mouth_name`: full match of `(m_\w+?)_(\d+)`. -/
def parseMouthName (name : String) : Option (String × String) :=
  match name.data with
  | 'm' :: '_' :: rest =>
    (mouthScan [] rest).map (fun p => (String.mk ('m' :: '_' :: p.1), String.mk p.2))
  | _ => none

/-! ## composite_portraits.py: group derivation -/

/-- One compositing group: accumulated body names plus the eye and
mouth maps (base name to frame list, insertion ordered). -/
structure PGroup where
  bodies : List String
  eyes : List (String × List String)
  mouths : List (String × List String)
deriving DecidableEq

/-- `dict.setdefault(k, []).append(v)`: append to the entry of `k`,
creating it at the end when missing. -/
def sdApp : List (String × List String) → String → String → List (String × List String)
  | [], k, v => [(k, [v])]
  | (k', vs) :: rest, k, v =>
    if k' == k then (k', vs ++ [v]) :: rest else (k', vs) :: sdApp rest k v

/-- `flush()` in `derive_groups`: emit the current group only when it
has at least one body. -/
def flushOne (cb : List String) (ce cm : List (String × List String)) : List PGroup :=
  if cb.isEmpty then [] else [⟨cb, ce, cm⟩]

/-- The single left-to-right pass of `derive_groups` over the names of
the direct children of the root: a known body name closes the current
group first only when an eye or mouth entry has been accumulated, the
accessory root marker is skipped, and otherwise eye then mouth parsing
is attempted; the final group is flushed at the end. -/
def groupsLoop (bodySet : List String) :
    List String → List PGroup → List String →
    List (String × List String) → List (String × List String) → List PGroup
  | [], gs, cb, ce, cm => gs ++ flushOne cb ce cm
  | n :: rest, gs, cb, ce, cm =>
    if bodySet.contains n then
      if !ce.isEmpty || !cm.isEmpty then
        groupsLoop bodySet rest (gs ++ flushOne cb ce cm) [n] [] []
      else
        groupsLoop bodySet rest gs (cb ++ [n]) ce cm
    else if n == "add_parts" then
      groupsLoop bodySet rest gs cb ce cm
    else
      match parseEyeName n with
      | some ef => groupsLoop bodySet rest gs cb (sdApp ce ef.1 ef.2) cm
      | none =>
        match parseMouthName n with
        | some mf => groupsLoop bodySet rest gs cb ce (sdApp cm mf.1 mf.2)
        | none => groupsLoop bodySet rest gs cb ce cm

/-- `derive_groups(transforms, body_params)`. -/
def deriveGroups (ts : Transforms) (bodyParams : List String) : List PGroup :=
  match findNode ts "top" with
  | none => []
  | some topPid =>
    groupsLoop bodyParams ((childrenNames ts topPid).map (·.2)) [] [] [] []

/-! ## composite_portraits.py: accessory classification -/

/-- Python `name.endswith(suffix)`. -/
def pyEndsWith (s suffix : String) : Bool :=
  suffix.data.isSuffixOf s.data

/-- `re.search(r"_add\d+$", name)`: the name ends in one or more digits
immediately preceded by the four characters of the `_add` token.
Computed from the reversed character list: a nonempty trailing digit
run, then `d`, `d`, `a`, `_`. -/
def endsAddNum (s : String) : Bool :=
  let r := s.data.reverse
  let ds := r.takeWhile Char.isDigit
  !ds.isEmpty && ((r.drop ds.length).take 4 == ['d', 'd', 'a', '_'])

/-- The three accessory lists accumulated per accessory family in
`derive_add_parts`. -/
structure AddInfo where
  add : List String
  addrev : List String
  extras : List String
deriving DecidableEq

/-- The classification step of the inner loop of `derive_add_parts`:
`_addrev` suffix to the mirrored list, `_add` plus digits to the extras
list, everything else to the standard list. -/
def classifyStep (acc : AddInfo) (name : String) : AddInfo :=
  if pyEndsWith name "_addrev" then { acc with addrev := acc.addrev ++ [name] }
  else if endsAddNum name then { acc with extras := acc.extras ++ [name] }
  else { acc with add := acc.add ++ [name] }

/-- The inner loop of `derive_add_parts` over a list of child names. -/
def classifyFold (ns : List String) : AddInfo :=
  ns.foldl classifyStep ⟨[], [], []⟩

/-- Names of the children of one accessory family that are present in
the transform set, in child order. -/
def familyChildNames (ts : Transforms) (cpid : ℤ) : List String :=
  match lookupT ts cpid with
  | none => []
  | some t => t.children.filterMap (fun gc => (lookupT ts gc).map (·.goName))

/-- The three accessory lists of one family child of `add_parts`. -/
def familyLists (ts : Transforms) (cpid : ℤ) : AddInfo :=
  classifyFold (familyChildNames ts cpid)

/-- Modelled from the spec wording for claim C8: a name ends in the
fixed `_add` token followed by one or more digits. -/
def AddNumSuffix (s : String) : Prop :=
  ∃ p ds, s.data = p ++ ['_', 'a', 'd', 'd'] ++ ds ∧ ds ≠ [] ∧ ∀ c ∈ ds, c.isDigit = true

/-- A value of the `derive_add_parts` result dict: the cheek entry holds
a plain name list, each family entry holds the three classified
lists. -/
inductive AddEntry
  | plain (l : List String)
  | grouped (i : AddInfo)
deriving DecidableEq

/-- The `derive_add_parts` result: string-keyed dict in insertion
order. -/
abbrev AddDict := List (String × AddEntry)

/-- Dict lookup `add_parts.get(k)`. -/
def dictGet (d : AddDict) (k : String) : Option AddEntry :=
  (d.find? (fun e => e.1 == k)).map (·.2)

/-- Python dict assignment `d[k] = v`: replace in place when the key
exists, append otherwise. -/
def dictSet (d : AddDict) (k : String) (v : AddEntry) : AddDict :=
  if (d.find? (fun e => e.1 == k)).isSome then
    d.map (fun e => if e.1 == k then (e.1, v) else e)
  else d ++ [(k, v)]

/-- `derive_add_parts(transforms)`: children of the `add_parts` node
present in the transform set are processed in order; `basecmn` children
merge their child names into the shared cheek list (skipping
duplicates), every other child stores its three classified lists under
its own name. -/
def deriveAddParts (ts : Transforms) : AddDict :=
  match findNode ts "add_parts" with
  | none => []
  | some addPid =>
    let childPids :=
      match lookupT ts addPid with
      | none => []
      | some t => t.children.filter (fun c => (lookupT ts c).isSome)
    childPids.foldl (fun acc cpid =>
      match lookupT ts cpid with
      | none => acc
      | some t =>
        if t.goName == "basecmn" then
          let names := familyChildNames ts cpid
          let cur :=
            match dictGet acc "cheek" with
            | some (.plain l) => l
            | _ => []
          let merged := names.foldl (fun l n => if l.contains n then l else l ++ [n]) cur
          dictSet acc "cheek" (.plain merged)
        else
          dictSet acc t.goName (.grouped (familyLists ts cpid)))
      [("cheek", AddEntry.plain [])]

/-! ## composite_portraits.py: variants -/

/-- `_BASE_FAMILY_RE`: `^(base|b[0-9x])$`. -/
def baseFamily (s : String) : Bool :=
  match s.data with
  | ['b', 'a', 's', 'e'] => true
  | ['b', c] => c.isDigit || c == 'x'
  | _ => false

/-- The accessory info used by `build_variants` for a body:
`add_parts.get(body, {})`, with a non-dict value (the cheek name list)
wrapped as the standard list. -/
def infoOf (d : AddDict) (body : String) : AddInfo :=
  match dictGet d body with
  | none => ⟨[], [], []⟩
  | some (.plain l) => ⟨l, [], []⟩
  | some (.grouped i) => i

/-- `"_".join(c for c in parts if c)`. -/
def joinParts (parts : List String) : String :=
  String.intercalate "_" (parts.filter (fun c => !(c == "")))

/-- `build_variants(body)` (lines 417-452), abstracted to the triple
(variant subdirectory name, extra layer list, mirror flag); the empty
subdirectory name is the standard output directory. -/
def buildVariants (d : AddDict) (cheekLayers : List String)
    (revFlag extraFlag blushFlag : Bool) (body : String) :
    List (String × List String × Bool) :=
  let info := infoOf d body
  let useCheek := !cheekLayers.isEmpty && baseFamily body
  let accOpts : List (String × List String × Bool) :=
    ("", info.add, false) ::
      (if revFlag && !info.addrev.isEmpty then [("rev", info.addrev, true)] else [])
  let extOpts : List (String × List String) :=
    ("", []) :: (if extraFlag && !info.extras.isEmpty then [("extra", info.extras)] else [])
  let ckOpts : List (String × List String) :=
    ("", []) :: (if blushFlag && useCheek then [("blush", cheekLayers)] else [])
  accOpts.flatMap (fun a =>
    extOpts.flatMap (fun e =>
      ckOpts.map (fun c =>
        (joinParts [a.1, e.1, c.1], a.2.1 ++ e.2 ++ c.2, a.2.2))))

/-! ## composite_portraits.py: compositing -/

/-- A sprite rect in world space: bottom-left corner and size. -/
structure WRect where
  x : ℚ
  y : ℚ
  w : ℚ
  h : ℚ
deriving DecidableEq

/-- The shared canvas rect of one body in world space. -/
structure CanvasRect where
  cx : ℚ
  cy : ℚ
  cw : ℚ
  ch : ℚ
deriving DecidableEq

/-- `world_to_canvas(rect, canvas_rect)`: rounded canvas-relative
offsets, with the vertical axis flipped from bottom-up world space to
top-down image space. -/
def worldToCanvas (r : WRect) (cr : CanvasRect) : ℤ × ℤ :=
  (pyRound (r.x - cr.cx), pyRound (cr.ch - (r.y + r.h - cr.cy)))

/-- The pixel canvas size of `composite_portrait`:
`int(round(canvas_rect[2])), int(round(canvas_rect[3]))`. -/
def canvasPx (cr : CanvasRect) : ℤ × ℤ :=
  (pyRound cr.cw, pyRound cr.ch)

/-- String-keyed lookup for the rect and image tables. -/
def lookupS {α : Type} (m : List (String × α)) (k : String) : Option α :=
  (m.find? (fun e => e.1 == k)).map (·.2)

/-- The per-layer step of the loop in `composite_portrait` (lines
349-356): drop the layer when no decoded image or no rect is known;
compute the canvas offset; skip when the offset is below the negated
image width or height; otherwise blit at the offset clamped to zero.
`imgs` maps a layer name to the pixel size of its reconstructed
image. -/
def processLayer (spriteRects : List (String × WRect)) (cr : CanvasRect)
    (imgs : List (String × (Nat × Nat))) (name : String) :
    Option (String × ℤ × ℤ) :=
  match lookupS imgs name with
  | none => none
  | some wh =>
    match lookupS spriteRects name with
    | none => none
    | some r =>
      let dl := (worldToCanvas r cr).1
      let dt := (worldToCanvas r cr).2
      if dl < -(wh.1 : ℤ) ∨ dt < -(wh.2 : ℤ) then none
      else some (name, max dl 0, max dt 0)

/-- `composite_portrait(layers, ...)` abstracted to the ordered
back-to-front list of alpha-composite blits it performs (layer name and
clamped destination). -/
def compositePortrait (layers : List String) (spriteRects : List (String × WRect))
    (cr : CanvasRect) (imgs : List (String × (Nat × Nat))) :
    List (String × ℤ × ℤ) :=
  layers.filterMap (processLayer spriteRects cr imgs)

/-- Modelled from the spec wording for claim C7: the layer pixel
rectangle (offset `dl`, `dt`, size `w × h`) is entirely outside the
`cw × ch` canvas pixel rectangle. -/
def entirelyOutside (dl dt : ℤ) (w h : Nat) (cw ch : ℤ) : Prop :=
  dl + (w : ℤ) ≤ 0 ∨ dt + (h : ℤ) ≤ 0 ∨ cw ≤ dl ∨ ch ≤ dt

/-- A one-family accessory hierarchy used as a concrete instance: the
family node 1 has three accessory children with one name of each
classification. -/
def addFamilyExample : Transforms :=
  [((1 : ℤ), ⟨"fam", 0, [2, 3, 4], ((0 : ℚ), (0 : ℚ))⟩),
   ((2 : ℤ), ⟨"hat_add", 1, [], ((0 : ℚ), (0 : ℚ))⟩),
   ((3 : ℤ), ⟨"hat_addrev", 1, [], ((0 : ℚ), (0 : ℚ))⟩),
   ((4 : ℤ), ⟨"hat_add2", 1, [], ((0 : ℚ), (0 : ℚ))⟩)]

/-! ## Helper lemmas -/

theorem pyRound_int (n : ℤ) : pyRound ((n : ℚ)) = n := by
  simp [pyRound, Int.floor_intCast]

theorem u16Pairs_length : ∀ bs : List Byte, (u16Pairs bs).length = bs.length / 2 := by
  intro bs
  induction bs using u16Pairs.induct with
  | case1 b0 b1 rest ih =>
    simp only [u16Pairs, List.length_cons, ih]
    omega
  | case2 bs h =>
    rcases bs with _ | ⟨b0, _ | ⟨b1, rest⟩⟩
    · simp [u16Pairs]
    · simp [u16Pairs]
    · exact absurd rfl (h b0 b1 rest)

theorem quadsOf_length : ∀ l : List Nat, (quadsOf l).length = l.length / 6 := by
  intro l
  induction l using quadsOf.induct with
  | case1 a b c c2 d a2 rest ih =>
    simp only [quadsOf, List.length_cons, ih]
    omega
  | case2 l h =>
    rcases l with _ | ⟨a, _ | ⟨b, _ | ⟨c, _ | ⟨c2, _ | ⟨d, _ | ⟨a2, rest⟩⟩⟩⟩⟩⟩
    · simp [quadsOf]
    · simp [quadsOf]
    · simp [quadsOf]
    · simp [quadsOf]
    · simp [quadsOf]
    · simp [quadsOf]
    · exact absurd rfl (h a b c c2 d a2 rest)

theorem getD_six (a b c c2 d a2 : Nat) (rest : List Nat) (n : Nat) :
    (a :: b :: c :: c2 :: d :: a2 :: rest).getD (n + 6) 0 = rest.getD n 0 := by
  rw [show n + 6 = n + 1 + 1 + 1 + 1 + 1 + 1 by omega]
  simp only [List.getD_cons_succ]

theorem quadsOf_get6 : ∀ (q : Nat) (l : List Nat), 6 * q + 5 < l.length →
    (quadsOf l).get? q =
      some (l.getD (6 * q) 0, l.getD (6 * q + 1) 0, l.getD (6 * q + 2) 0,
        l.getD (6 * q + 4) 0) := by
  intro q
  induction q with
  | zero =>
    intro l hl
    rcases l with _ | ⟨a, _ | ⟨b, _ | ⟨c, _ | ⟨c2, _ | ⟨d, _ | ⟨a2, rest⟩⟩⟩⟩⟩⟩ <;>
      simp only [List.length_nil, List.length_cons] at hl
    · omega
    · omega
    · omega
    · omega
    · omega
    · omega
    · simp [quadsOf, List.getD]
  | succ q ih =>
    intro l hl
    rcases l with _ | ⟨a, _ | ⟨b, _ | ⟨c, _ | ⟨c2, _ | ⟨d, _ | ⟨a2, rest⟩⟩⟩⟩⟩⟩ <;>
      simp only [List.length_nil, List.length_cons] at hl
    · omega
    · omega
    · omega
    · omega
    · omega
    · omega
    · have hrest : 6 * q + 5 < rest.length := by omega
      have hih := ih rest hrest
      rw [show 6 * (q + 1) = 6 * q + 6 by ring]
      rw [show 6 * q + 6 + 1 = 6 * q + 1 + 6 by ring,
        show 6 * q + 6 + 2 = 6 * q + 2 + 6 by ring,
        show 6 * q + 6 + 4 = 6 * q + 4 + 6 by ring]
      rw [getD_six, getD_six, getD_six, getD_six]
      simpa [quadsOf] using hih

theorem worldPosFuel_mono : ∀ (f f' : Nat) (ts : Transforms) (pid : ℤ) (r : ℚ × ℚ),
    f ≤ f' → worldPosFuel f ts pid = some r → worldPosFuel f' ts pid = some r := by
  intro f
  induction f with
  | zero => intro f' ts pid r _ h; simp [worldPosFuel] at h
  | succ f ih =>
    intro f' ts pid r hle h
    obtain ⟨f'', rfl⟩ : ∃ g, f' = g + 1 := ⟨f' - 1, by omega⟩
    cases hL : lookupT ts pid with
    | none =>
      simp only [worldPosFuel, hL] at h ⊢
      exact h
    | some t =>
      by_cases hc : t.parent = 0 ∨ lookupT ts t.parent = none
      · simp only [worldPosFuel, hL, if_pos hc] at h ⊢
        exact h
      · simp only [worldPosFuel, hL, if_neg hc] at h ⊢
        cases hp : worldPosFuel f ts t.parent with
        | none => simp [hp] at h
        | some p =>
          simp only [hp] at h
          simp only [ih f'' ts t.parent p (by omega) hp]
          exact h

theorem worldPosFuel_det {f f' : Nat} {ts : Transforms} {pid : ℤ} {r r' : ℚ × ℚ}
    (h : worldPosFuel f ts pid = some r) (h' : worldPosFuel f' ts pid = some r') :
    r = r' := by
  rcases Nat.le_total f f' with hle | hle
  · have := worldPosFuel_mono f f' ts pid r hle h
    rw [this] at h'; exact (Option.some.inj h')
  · have := worldPosFuel_mono f' f ts pid r' hle h'
    rw [this] at h; exact (Option.some.inj h).symm

theorem lookupM_cons (k : ℤ) (v : ℚ × ℚ) (m : WMemo) (p : ℤ) :
    lookupM ((k, v) :: m) p = if k = p then some v else lookupM m p := by
  by_cases h : k = p <;> simp [lookupM, List.find?, h]

theorem goodMemo_nil (ts : Transforms) : GoodMemo ts [] := by
  intro p r h
  simp [lookupM, List.find?] at h

theorem goodMemo_cons {ts : Transforms} {m : WMemo} {pid : ℤ} {r : ℚ × ℚ} {g : Nat}
    (hm : GoodMemo ts m) (hw : worldPosFuel g ts pid = some r) :
    GoodMemo ts ((pid, r) :: m) := by
  intro p r' hl
  rw [lookupM_cons] at hl
  by_cases h : pid = p
  · rw [if_pos h] at hl
    exact ⟨g, h ▸ (hl ▸ hw : worldPosFuel g ts pid = some r')⟩
  · rw [if_neg h] at hl
    exact hm p r' hl

theorem worldPosMemo_good : ∀ (fuel : Nat) (ts : Transforms) (pid : ℤ) (memo : WMemo),
    GoodMemo ts memo →
    GoodMemo ts (worldPosMemo fuel ts pid memo).2 ∧
      ∀ r, (worldPosMemo fuel ts pid memo).1 = some r →
        ∃ g, worldPosFuel g ts pid = some r := by
  intro fuel
  induction fuel with
  | zero => intro ts pid memo hg; exact ⟨hg, by simp [worldPosMemo]⟩
  | succ fuel ih =>
    intro ts pid memo hg
    cases hm : lookupM memo pid with
    | some r0 =>
      simp only [worldPosMemo, hm]
      exact ⟨hg, fun r hr => hg pid r ((Option.some.inj hr) ▸ hm)⟩
    | none =>
      cases hL : lookupT ts pid with
      | none =>
        simp only [worldPosMemo, hm, hL]
        refine ⟨goodMemo_cons hg (g := 1) ?_, fun r hr => ?_⟩
        · simp [worldPosFuel, hL]
        · exact ⟨1, by simp [worldPosFuel, hL, ← Option.some.inj hr]⟩
      | some t =>
        by_cases hc : t.parent = 0 ∨ lookupT ts t.parent = none
        · simp only [worldPosMemo, hm, hL, if_pos hc]
          refine ⟨goodMemo_cons hg (g := 1) ?_, fun r hr => ?_⟩
          · simp [worldPosFuel, hL, hc]
          · exact ⟨1, by simp [worldPosFuel, hL, hc, ← Option.some.inj hr]⟩
        · obtain ⟨hg', hs⟩ := ih ts t.parent memo hg
          cases hrec : worldPosMemo fuel ts t.parent memo with
          | mk ro m' =>
            rw [hrec] at hg' hs
            simp only [worldPosMemo, hm, hL, if_neg hc, hrec]
            cases ro with
            | none => exact ⟨hg', by simp⟩
            | some p =>
              obtain ⟨g, hgp⟩ := hs p rfl
              have hstep : worldPosFuel (g + 1) ts pid =
                  some (p.1 + t.lp.1, p.2 + t.lp.2) := by
                simp only [worldPosFuel, hL, if_neg hc, hgp]
              refine ⟨goodMemo_cons hg' hstep, fun r hr => ?_⟩
              exact ⟨g + 1, by rw [hstep, ← Option.some.inj hr]⟩

theorem worldPosMemo_stores : ∀ (fuel : Nat) (ts : Transforms) (pid : ℤ) (memo : WMemo)
    (r : ℚ × ℚ) (memo' : WMemo),
    worldPosMemo fuel ts pid memo = (some r, memo') → lookupM memo' pid = some r := by
  intro fuel ts pid memo r memo' h
  match fuel with
  | 0 => simp [worldPosMemo] at h
  | fuel + 1 =>
    cases hm : lookupM memo pid with
    | some r0 =>
      simp only [worldPosMemo, hm, Prod.mk.injEq] at h
      rw [← h.2, hm, h.1]
    | none =>
      cases hL : lookupT ts pid with
      | none =>
        simp only [worldPosMemo, hm, hL, Prod.mk.injEq] at h
        rw [← h.2, lookupM_cons, if_pos rfl, h.1]
      | some t =>
        by_cases hc : t.parent = 0 ∨ lookupT ts t.parent = none
        · simp only [worldPosMemo, hm, hL, if_pos hc, Prod.mk.injEq] at h
          rw [← h.2, lookupM_cons, if_pos rfl, h.1]
        · cases hrec : worldPosMemo fuel ts t.parent memo with
          | mk ro m1 =>
            simp only [worldPosMemo, hm, hL, if_neg hc, hrec, Prod.mk.injEq] at h
            cases ro with
            | none => simp at h
            | some p =>
              simp only [Prod.mk.injEq] at h
              rw [← h.2, lookupM_cons, if_pos rfl, h.1]

theorem groupsLoop_bodies_ne : ∀ (names : List String) (bodySet : List String)
    (gs : List PGroup) (cb : List String) (ce cm : List (String × List String)),
    (∀ g ∈ gs, g.bodies ≠ []) →
    ∀ g ∈ groupsLoop bodySet names gs cb ce cm, g.bodies ≠ [] := by
  intro names
  induction names with
  | nil =>
    intro bodySet gs cb ce cm hgs g hg
    simp only [groupsLoop, List.mem_append] at hg
    rcases hg with hg | hg
    · exact hgs g hg
    · unfold flushOne at hg
      by_cases hcb : cb.isEmpty
      · simp [hcb] at hg
      · simp only [hcb, Bool.false_eq_true, if_false, List.mem_singleton] at hg
        subst hg
        simpa using hcb
  | cons n rest ih =>
    intro bodySet gs cb ce cm hgs g hg
    by_cases h1 : bodySet.contains n
    · by_cases h2 : (!ce.isEmpty || !cm.isEmpty) = true
      · simp only [groupsLoop, h1, h2, if_true] at hg
        refine ih bodySet _ [n] [] [] ?_ g hg
        intro g' hg'
        simp only [List.mem_append] at hg'
        rcases hg' with hg' | hg'
        · exact hgs g' hg'
        · unfold flushOne at hg'
          by_cases hcb : cb.isEmpty
          · simp [hcb] at hg'
          · simp only [hcb, Bool.false_eq_true, if_false, List.mem_singleton] at hg'
            subst hg'
            simpa using hcb
      · simp only [groupsLoop, h1, h2, Bool.false_eq_true, if_true, if_false] at hg
        exact ih bodySet gs (cb ++ [n]) ce cm hgs g hg
    · simp only [groupsLoop, h1, Bool.false_eq_true, if_false] at hg
      by_cases h3 : n == "add_parts"
      · simp only [h3, if_true] at hg
        exact ih bodySet gs cb ce cm hgs g hg
      · simp only [h3, Bool.false_eq_true, if_false] at hg
        cases he : parseEyeName n with
        | some ef =>
          simp only [he] at hg
          exact ih bodySet gs cb _ cm hgs g hg
        | none =>
          simp only [he] at hg
          cases hmo : parseMouthName n with
          | some mf =>
            simp only [hmo] at hg
            exact ih bodySet gs cb ce _ hgs g hg
          | none =>
            simp only [hmo] at hg
            exact ih bodySet gs cb ce cm hgs g hg

theorem classifyFold_go : ∀ (ns : List String) (acc : AddInfo),
    ns.foldl classifyStep acc =
      ⟨acc.add ++ ns.filter (fun n => !pyEndsWith n "_addrev" && !endsAddNum n),
       acc.addrev ++ ns.filter (fun n => pyEndsWith n "_addrev"),
       acc.extras ++ ns.filter (fun n => !pyEndsWith n "_addrev" && endsAddNum n)⟩ := by
  intro ns
  induction ns with
  | nil => intro acc; simp
  | cons n rest ih =>
    intro acc
    by_cases h1 : pyEndsWith n "_addrev"
    · simp only [List.foldl_cons, classifyStep, h1, if_true, ih, List.filter_cons,
        Bool.not_true, Bool.false_and, Bool.and_self]
      simp [List.append_assoc]
    · by_cases h2 : endsAddNum n
      · simp only [List.foldl_cons, classifyStep, h1, h2, Bool.false_eq_true, if_false,
          if_true, ih, List.filter_cons, Bool.not_false, Bool.true_and, Bool.not_true]
        simp [h1, h2, List.append_assoc]
      · simp only [List.foldl_cons, classifyStep, h1, h2, Bool.false_eq_true, if_false,
          ih, List.filter_cons]
        simp [h1, h2, List.append_assoc]

theorem takeWhile_all_append (p : Char → Bool) :
    ∀ (l1 : List Char) (c : Char) (l2 : List Char),
    (∀ x ∈ l1, p x = true) → p c = false →
    List.takeWhile p (l1 ++ c :: l2) = l1 := by
  intro l1
  induction l1 with
  | nil =>
    intro c l2 _ hc
    simp [List.takeWhile, hc]
  | cons x xs ih =>
    intro c l2 hall hc
    have hx : p x = true := hall x (by simp)
    simp only [List.cons_append, List.takeWhile_cons, hx, if_true]
    rw [ih c l2 (fun y hy => hall y (by simp [hy])) hc]

theorem endsAddNum_iff (s : String) : endsAddNum s = true ↔ AddNumSuffix s := by
  constructor
  · intro h
    unfold endsAddNum at h
    simp only [Bool.and_eq_true, Bool.not_eq_true', List.isEmpty_eq_false, beq_iff_eq] at h
    obtain ⟨hne, htake⟩ := h
    set r := s.data.reverse with hr
    set ds := r.takeWhile Char.isDigit with hds
    set d := r.dropWhile Char.isDigit with hd
    have hsplit : r = ds ++ d := (List.takeWhile_append_dropWhile ..).symm
    have hdrop : r.drop ds.length = d := by
      rw [hsplit, List.drop_left]
    rw [hdrop] at htake
    have hd4 : d = ['d', 'd', 'a', '_'] ++ d.drop 4 := by
      conv_lhs => rw [← List.take_append_drop 4 d]
      rw [htake]
    refine ⟨(d.drop 4).reverse, ds.reverse, ?_, ?_, ?_⟩
    · have hsd : s.data = r.reverse := by rw [hr, List.reverse_reverse]
      rw [hsd, hsplit, hd4]
      simp [List.reverse_append]
    · simpa using hne
    · intro c hc
      rw [List.mem_reverse] at hc
      exact List.mem_takeWhile_imp hc
  · rintro ⟨p, ds, hdata, hne, hdig⟩
    unfold endsAddNum
    have hr : s.data.reverse = ds.reverse ++ ('d' :: (['d', 'a', '_'] ++ p.reverse)) := by
      rw [hdata]
      simp [List.reverse_append]
    have htw : s.data.reverse.takeWhile Char.isDigit = ds.reverse := by
      rw [hr]
      refine takeWhile_all_append _ _ _ _ ?_ (by decide)
      intro x hx
      rw [List.mem_reverse] at hx
      exact hdig x hx
    simp only [Bool.and_eq_true, Bool.not_eq_true', List.isEmpty_eq_false, beq_iff_eq]
    rw [htw]
    constructor
    · simpa using hne
    · rw [hr]
      rw [show ('d' :: (['d', 'a', '_'] ++ p.reverse)) = ['d', 'd', 'a', '_'] ++ p.reverse
        from rfl]
      rw [List.drop_left]
      rw [show (4 : Nat) = (['d', 'd', 'a', '_'] : List Char).length from rfl, List.take_left]

theorem familyLists_filters (ts : Transforms) (cpid : ℤ) :
    (familyLists ts cpid).add =
        (familyChildNames ts cpid).filter
          (fun n => !pyEndsWith n "_addrev" && !endsAddNum n) ∧
    (familyLists ts cpid).addrev =
        (familyChildNames ts cpid).filter (fun n => pyEndsWith n "_addrev") ∧
    (familyLists ts cpid).extras =
        (familyChildNames ts cpid).filter
          (fun n => !pyEndsWith n "_addrev" && endsAddNum n) := by
  unfold familyLists classifyFold
  rw [classifyFold_go]
  simp

/-! ## Claim theorems -/

/-- C1: for every quad processed by `reconstruct_sprite`, the
destination region is the axis-aligned bounding box of the four vertex
positions translated horizontally by `-rect.x` and flipped vertically
(`dstT = canvasH - (maxY - rect.y)`, `dstB = canvasH - (minY - rect.y)`),
and the source region is the bounding box of the four uvs scaled by the
atlas dimensions with v flipped (`srcL = minU * tw`, `srcR = maxU * tw`,
`srcT = (1 - maxV) * th`, `srcB = (1 - minV) * th`); moreover a single
unit-square quad at the rect origin with uvs (0,0)-(1,1) on a 10 by 10
atlas maps the full atlas onto the full 1 by 1 canvas, with uv v = 0 at
the destination bottom. -/
theorem c1_quad_regions :
    (∀ (rect : SRect) (canvasH : ℤ) (tw th : ℚ) (v1 v2 v3 v4 : Vertex),
      quadBounds rect canvasH tw th v1 v2 v3 v4 =
        specQuadBounds rect canvasH tw th v1 v2 v3 v4) ∧
    quadBounds ⟨0, 0, 1, 1⟩ (pyRound ((1 : ℚ))) 10 10 ⟨0, 0, 0, 0⟩ ⟨1, 0, 1, 0⟩
        ⟨1, 1, 1, 1⟩ ⟨0, 1, 0, 1⟩ =
      ⟨0, 0, 1, 1, 0, 0, 10, 10⟩ := by
  constructor
  · intro rect canvasH tw th v1 v2 v3 v4
    rfl
  · have h1 : pyRound ((1 : ℚ)) = 1 := by norm_num [pyRound]
    rw [h1]
    simp only [quadBounds, listMin, listMax, List.foldl]
    norm_num [pyRound, QuadBounds.mk.injEq]

/-- C2: for a node present in the transform set, `_world_pos` returns
its local offset alone when the parent id is 0 or absent, and otherwise
its local offset plus the world position of the parent; the memoized
resolution agrees with the unmemoized recursion whenever the memo is
good, preserves goodness, starts good when empty, returns the same
value and memo on a second resolution of the same node, yields the same
value in any resolution order, and the chain root to A to B to C with
offsets (1,0), (0,2), (3,0) resolves C to (4,2). -/
theorem c2_world_pos :
    (∀ (ts : Transforms) (pid : ℤ) (t : TNode) (fuel : Nat),
      lookupT ts pid = some t → (t.parent = 0 ∨ lookupT ts t.parent = none) →
      worldPosFuel (fuel + 1) ts pid = some t.lp) ∧
    (∀ (ts : Transforms) (pid : ℤ) (t : TNode) (fuel : Nat) (p : ℚ × ℚ),
      lookupT ts pid = some t → t.parent ≠ 0 → lookupT ts t.parent ≠ none →
      worldPosFuel fuel ts t.parent = some p →
      worldPosFuel (fuel + 1) ts pid = some (p.1 + t.lp.1, p.2 + t.lp.2)) ∧
    (∀ (fuel : Nat) (ts : Transforms) (pid : ℤ) (memo : WMemo) (r : ℚ × ℚ),
      GoodMemo ts memo → (worldPosMemo fuel ts pid memo).1 = some r →
      ∃ g, worldPosFuel g ts pid = some r) ∧
    (∀ (fuel : Nat) (ts : Transforms) (pid : ℤ) (memo : WMemo),
      GoodMemo ts memo → GoodMemo ts (worldPosMemo fuel ts pid memo).2) ∧
    (∀ ts : Transforms, GoodMemo ts []) ∧
    (∀ (fuel : Nat) (ts : Transforms) (pid : ℤ) (memo : WMemo) (r : ℚ × ℚ)
        (memo' : WMemo) (fuel' : Nat),
      worldPosMemo fuel ts pid memo = (some r, memo') →
      worldPosMemo (fuel' + 1) ts pid memo' = (some r, memo')) ∧
    (∀ (ts : Transforms) (pid : ℤ) (f1 f2 : Nat) (m1 m2 : WMemo) (r1 r2 : ℚ × ℚ),
      GoodMemo ts m1 → GoodMemo ts m2 →
      (worldPosMemo f1 ts pid m1).1 = some r1 →
      (worldPosMemo f2 ts pid m2).1 = some r2 → r1 = r2) ∧
    worldPosFuel 4 chainTransforms 3 = some (4, 2) ∧
    (worldPosMemo 4 chainTransforms 3 []).1 = some (4, 2) := by
  refine ⟨?_, ?_, ?_, ?_, ?_, ?_, ?_, ?_, ?_⟩
  · intro ts pid t fuel hL hc
    simp only [worldPosFuel, hL, if_pos hc]
  · intro ts pid t fuel p hL h0 hn hp
    have hc : ¬(t.parent = 0 ∨ lookupT ts t.parent = none) := by
      intro h; rcases h with h | h
      · exact h0 h
      · exact hn h
    simp only [worldPosFuel, hL, if_neg hc, hp]
  · intro fuel ts pid memo r hg hr
    exact (worldPosMemo_good fuel ts pid memo hg).2 r hr
  · intro fuel ts pid memo hg
    exact (worldPosMemo_good fuel ts pid memo hg).1
  · exact goodMemo_nil
  · intro fuel ts pid memo r memo' fuel' h
    have hs := worldPosMemo_stores fuel ts pid memo r memo' h
    simp only [worldPosMemo, hs]
  · intro ts pid f1 f2 m1 m2 r1 r2 hg1 hg2 h1 h2
    obtain ⟨g1, hw1⟩ := (worldPosMemo_good f1 ts pid m1 hg1).2 r1 h1
    obtain ⟨g2, hw2⟩ := (worldPosMemo_good f2 ts pid m2 hg2).2 r2 h2
    exact worldPosFuel_det hw1 hw2
  · simp only [worldPosFuel, lookupT, chainTransforms, List.find?]
    simp
    norm_num
  · simp only [worldPosMemo, lookupM, lookupT, chainTransforms, List.find?]
    simp
    norm_num

/-- Witness for C2: a single root node resolves to its own local
offset. -/
theorem c2_world_pos_witness :
    worldPosFuel 1 [((7 : ℤ), ⟨"root", 0, [], ((5 : ℚ), (6 : ℚ))⟩)] 7 = some (5, 6) :=
  c2_world_pos.1 [((7 : ℤ), ⟨"root", 0, [], ((5 : ℚ), (6 : ℚ))⟩)] 7
    ⟨"root", 0, [], ((5 : ℚ), (6 : ℚ))⟩ 0 rfl (Or.inl rfl)

/-- C3: quad decoding yields one quad per consecutive group of six
little-endian uint16 indices, using exactly the indices at positions 0,
1, 2 and 4 of each group (the two triangles (a,b,c) and (c,d,a) of the
pattern (a,b,c,c,d,a)) and discarding the two duplicates; a trailing
incomplete group yields nothing, and on an even-length buffer
`iter_quads` is exactly this decoding composed with the little-endian
pairing. -/
theorem c3_quad_pattern :
    (∀ (a b c c2 d a2 : Nat) (rest : List Nat),
      quadsOf (a :: b :: c :: c2 :: d :: a2 :: rest) = (a, b, c, d) :: quadsOf rest) ∧
    (∀ l : List Nat, l.length < 6 → quadsOf l = []) ∧
    (∀ (q : Nat) (l : List Nat), 6 * q + 5 < l.length →
      (quadsOf l).get? q =
        some (l.getD (6 * q) 0, l.getD (6 * q + 1) 0, l.getD (6 * q + 2) 0,
          l.getD (6 * q + 4) 0)) ∧
    (∀ (b0 b1 : Byte) (rest : List Byte),
      u16Pairs (b0 :: b1 :: rest) = (b0.val + 256 * b1.val) :: u16Pairs rest) ∧
    (∀ bs : List Byte, bs.length % 2 = 0 → iterQuads bs = some (quadsOf (u16Pairs bs))) := by
  refine ⟨fun a b c c2 d a2 rest => rfl, ?_, quadsOf_get6, fun b0 b1 rest => rfl, ?_⟩
  · intro l hl
    rcases l with _ | ⟨a, _ | ⟨b, _ | ⟨c, _ | ⟨c2, _ | ⟨d, _ | ⟨a2, rest⟩⟩⟩⟩⟩⟩
    · rfl
    · rfl
    · rfl
    · rfl
    · rfl
    · rfl
    · simp only [List.length_cons] at hl; omega
  · intro bs h
    simp [iterQuads, unpackIndices, h]

/-- Witness for C3: the first quad of a seven-value index list is built
from positions 0, 1, 2 and 4. -/
theorem c3_quad_pattern_witness :
    (quadsOf [10, 11, 12, 12, 13, 10, 99]).get? 0 = some (10, 11, 12, 13) :=
  c3_quad_pattern.2.2.1 0 [10, 11, 12, 12, 13, 10, 99] (by decide)

/-- C4: on a cyclic parent relation `_world_pos` does not detect the
cycle: the recursion never reaches a base case, so for every recursion
depth bound the resolution is still running (out of fuel), with and
without the memo table; in CPython this surfaces as an unbounded
recursion aborted only by the interpreter recursion limit, not as a
detected-cycle error. -/
theorem c4_cycle_not_detected : ∀ fuel : Nat,
    worldPosFuel fuel cycleTransforms 1 = none ∧
    worldPosFuel fuel cycleTransforms 2 = none ∧
    worldPosMemo fuel cycleTransforms 1 [] = (none, []) ∧
    worldPosMemo fuel cycleTransforms 2 [] = (none, []) := by
  intro fuel
  induction fuel with
  | zero => exact ⟨rfl, rfl, rfl, rfl⟩
  | succ f ih =>
    refine ⟨?_, ?_, ?_, ?_⟩
    · have e : worldPosFuel (f + 1) cycleTransforms 1 =
          (match worldPosFuel f cycleTransforms 2 with
           | none => none
           | some p => some (p.1 + 1, p.2 + 0)) := rfl
      rw [e, ih.2.1]
    · have e : worldPosFuel (f + 1) cycleTransforms 2 =
          (match worldPosFuel f cycleTransforms 1 with
           | none => none
           | some p => some (p.1 + 0, p.2 + 1)) := rfl
      rw [e, ih.1]
    · have e : worldPosMemo (f + 1) cycleTransforms 1 [] =
          (match worldPosMemo f cycleTransforms 2 [] with
           | (none, memo') => (none, memo')
           | (some p, memo') =>
             (some (p.1 + 1, p.2 + 0), ((1 : ℤ), (p.1 + 1, p.2 + 0)) :: memo')) := rfl
      rw [e, ih.2.2.2]
    · have e : worldPosMemo (f + 1) cycleTransforms 2 [] =
          (match worldPosMemo f cycleTransforms 1 [] with
           | (none, memo') => (none, memo')
           | (some p, memo') =>
             (some (p.1 + 0, p.2 + 1), ((2 : ℤ), (p.1 + 0, p.2 + 1)) :: memo')) := rfl
      rw [e, ih.2.2.1]

/-- C5: in the single left-to-right pass of `derive_groups` over the
root children, a known body name closes the current group and starts a
new one exactly when the current group already holds an eye or mouth
entry, and is otherwise appended to the current group body list; the
final group is flushed at the end of the traversal; a flushed group with
no bodies is dropped, and consequently every emitted group has at least
one body. -/
theorem c5_group_pass :
    (∀ (bodySet : List String) (n : String) (rest : List String) (gs : List PGroup)
        (cb : List String) (ce cm : List (String × List String)),
      bodySet.contains n = true → (!ce.isEmpty || !cm.isEmpty) = true →
      groupsLoop bodySet (n :: rest) gs cb ce cm =
        groupsLoop bodySet rest (gs ++ flushOne cb ce cm) [n] [] []) ∧
    (∀ (bodySet : List String) (n : String) (rest : List String) (gs : List PGroup)
        (cb : List String) (ce cm : List (String × List String)),
      bodySet.contains n = true → (!ce.isEmpty || !cm.isEmpty) = false →
      groupsLoop bodySet (n :: rest) gs cb ce cm =
        groupsLoop bodySet rest gs (cb ++ [n]) ce cm) ∧
    (∀ (bodySet : List String) (gs : List PGroup) (cb : List String)
        (ce cm : List (String × List String)),
      groupsLoop bodySet [] gs cb ce cm = gs ++ flushOne cb ce cm) ∧
    (∀ ce cm : List (String × List String), flushOne [] ce cm = []) ∧
    (∀ (cb : List String) (ce cm : List (String × List String)),
      cb ≠ [] → flushOne cb ce cm = [⟨cb, ce, cm⟩]) ∧
    (∀ (ts : Transforms) (bp : List String) (g : PGroup),
      g ∈ deriveGroups ts bp → g.bodies ≠ []) := by
  refine ⟨?_, ?_, ?_, ?_, ?_, ?_⟩
  · intro bodySet n rest gs cb ce cm h1 h2
    simp only [groupsLoop, h1, h2, if_true]
  · intro bodySet n rest gs cb ce cm h1 h2
    simp only [groupsLoop, h1, h2, if_true, Bool.false_eq_true, if_false]
  · intro bodySet gs cb ce cm
    rfl
  · intro ce cm
    rfl
  · intro cb ce cm hcb
    unfold flushOne
    rw [if_neg (by simpa using hcb)]
  · intro ts bp g hg
    unfold deriveGroups at hg
    cases h : findNode ts "top" with
    | none => rw [h] at hg; simp at hg
    | some topPid =>
      rw [h] at hg
      exact groupsLoop_bodies_ne _ bp [] [] [] [] (by simp) g hg

/-- Witness for C5: a body name arriving while an eye entry is pending
closes the current group and starts a new group holding that body. -/
theorem c5_group_pass_witness :
    groupsLoop ["base"] ["base"] [] ["b0"] [("e_nom", ["n1"])] [] =
      groupsLoop ["base"] [] ([] ++ flushOne ["b0"] [("e_nom", ["n1"])] []) ["base"] [] [] :=
  c5_group_pass.1 ["base"] "base" [] [] ["b0"] [("e_nom", ["n1"])] [] (by decide) (by decide)

/-- C6: `build_variants` produces exactly the product of the enabled
axis cardinalities: 2 when the rev flag is set and the mirrored list is
nonempty else 1, times 2 when the extra flag is set and the extras list
is nonempty else 1, times 2 when the blush flag is set, the cheek list
is nonempty and the body is base-family else 1; the standard no-option
variant (empty subdirectory, standard accessory layers, no mirroring) is
always the first entry; with all three axes present and all flags on
this gives 8 variants. -/
theorem c6_variant_count :
    (∀ (d : AddDict) (cheekLayers : List String) (rv ex bl : Bool) (body : String),
      (buildVariants d cheekLayers rv ex bl body).length =
        (if rv && !(infoOf d body).addrev.isEmpty then 2 else 1) *
          ((if ex && !(infoOf d body).extras.isEmpty then 2 else 1) *
            (if bl && (!cheekLayers.isEmpty && baseFamily body) then 2 else 1))) ∧
    (∀ (d : AddDict) (cheekLayers : List String) (rv ex bl : Bool) (body : String),
      (buildVariants d cheekLayers rv ex bl body).head? =
        some ("", (infoOf d body).add, false)) ∧
    (buildVariants [("base", AddEntry.grouped ⟨["s_add"], ["s_addrev"], ["s_add1"]⟩)]
      ["base_cheek"] true true true "base").length = 8 := by
  refine ⟨?_, ?_, by decide⟩
  · intro d ch rv ex bl body
    unfold buildVariants
    cases h1 : (rv && !(infoOf d body).addrev.isEmpty) <;>
      cases h2 : (ex && !(infoOf d body).extras.isEmpty) <;>
        cases h3 : (bl && (!ch.isEmpty && baseFamily body)) <;>
          simp only [h1, h2, h3] <;> simp [List.flatMap]
  · intro d ch rv ex bl body
    unfold buildVariants
    cases h1 : (rv && !(infoOf d body).addrev.isEmpty) <;>
      cases h2 : (ex && !(infoOf d body).extras.isEmpty) <;>
        cases h3 : (bl && (!ch.isEmpty && baseFamily body)) <;>
          simp only [h1, h2, h3] <;>
            simp [List.flatMap, joinParts, show "_".intercalate [] = "" from rfl]

/-- C7 counterexample: a layer whose rect places it entirely to the
right of the canvas (offset 20 with width 5 on a 10 by 10 canvas) is
entirely outside the canvas, yet `composite_portrait` does not skip it:
the blit is still performed (and only clipped away by the underlying
paste), refuting that a layer is skipped exactly when its offset places
it entirely outside the canvas. -/
theorem c7_skip_counterexample :
    compositePortrait ["x"] [("x", ⟨20, 0, 5, 5⟩)] ⟨0, 0, 10, 10⟩ [("x", (5, 5))] =
        [("x", 20, 5)] ∧
      entirelyOutside 20 5 5 5 (canvasPx ⟨0, 0, 10, 10⟩).1 (canvasPx ⟨0, 0, 10, 10⟩).2 := by
  constructor
  · simp only [compositePortrait, List.filterMap, processLayer, lookupS, List.find?,
      worldToCanvas]
    norm_num [pyRound]
  · have h1 : (canvasPx ⟨0, 0, 10, 10⟩).1 = 10 := by norm_num [canvasPx, pyRound]
    have h2 : (canvasPx ⟨0, 0, 10, 10⟩).2 = 10 := by norm_num [canvasPx, pyRound]
    rw [h1, h2]
    unfold entirelyOutside
    right; right; left
    omega

/-- C7 (amended): a layer with a loaded image and a known rect is
skipped exactly when its offset is strictly below the negated image
width horizontally or the negated image height vertically; such an
offset does place the layer entirely outside the canvas (past the left
or top edge), but a layer entirely outside past the right or bottom edge
is not skipped; every non-skipped layer is blitted back-to-front at its
offset clamped to zero, with no other clipping logic. -/
theorem c7_layer_skip :
    (∀ (spriteRects : List (String × WRect)) (cr : CanvasRect)
        (imgs : List (String × (Nat × Nat))) (name : String) (wh : Nat × Nat) (r : WRect),
      lookupS imgs name = some wh → lookupS spriteRects name = some r →
      ((processLayer spriteRects cr imgs name = none ↔
          ((worldToCanvas r cr).1 < -(wh.1 : ℤ) ∨ (worldToCanvas r cr).2 < -(wh.2 : ℤ))) ∧
        (¬((worldToCanvas r cr).1 < -(wh.1 : ℤ) ∨ (worldToCanvas r cr).2 < -(wh.2 : ℤ)) →
          processLayer spriteRects cr imgs name =
            some (name, max (worldToCanvas r cr).1 0, max (worldToCanvas r cr).2 0)))) ∧
    (∀ (dl dt : ℤ) (w h : Nat) (cw ch : ℤ),
      dl < -(w : ℤ) ∨ dt < -(h : ℤ) → entirelyOutside dl dt w h cw ch) ∧
    (∀ (layers : List String) (spriteRects : List (String × WRect)) (cr : CanvasRect)
        (imgs : List (String × (Nat × Nat))),
      compositePortrait layers spriteRects cr imgs =
        layers.filterMap (processLayer spriteRects cr imgs)) := by
  refine ⟨?_, ?_, fun layers spriteRects cr imgs => rfl⟩
  · intro rects cr imgs name wh r h1 h2
    constructor
    · by_cases hc : (worldToCanvas r cr).1 < -(wh.1 : ℤ) ∨ (worldToCanvas r cr).2 < -(wh.2 : ℤ)
      · simp only [processLayer, h1, h2, if_pos hc]
        simp [hc]
      · simp only [processLayer, h1, h2, if_neg hc]
        simp [hc]
    · intro hc
      simp only [processLayer, h1, h2, if_neg hc]
  · intro dl dt w h cw ch hc
    unfold entirelyOutside
    rcases hc with hc | hc
    · left; omega
    · right; left; omega

/-- Witness for C7: a layer nine pixels past the left edge with a three
pixel wide image is skipped. -/
theorem c7_layer_skip_witness :
    processLayer [("y", ⟨-9, 0, 3, 3⟩)] ⟨0, 0, 10, 10⟩ [("y", (3, 3))] "y" = none :=
  ((c7_layer_skip.1 [("y", ⟨-9, 0, 3, 3⟩)] ⟨0, 0, 10, 10⟩ [("y", (3, 3))] "y" (3, 3)
      ⟨-9, 0, 3, 3⟩ rfl rfl).1).mpr
    (Or.inl (by norm_num [worldToCanvas, pyRound]))

/-- C8: accessory classification in `derive_add_parts` is total and
disjoint: the three per-family lists are exactly the filters of the
family child names present in the transform set by the three mutually
exclusive predicates (`_addrev` suffix; otherwise `_add` followed by one
or more digits at the end; otherwise standard), hence every such child
name lands in exactly one list; and the numbered-extra test recognises
exactly the names that end in the `_add` token followed by one or more
digits. -/
theorem c8_accessory_partition :
    (∀ (ts : Transforms) (cpid : ℤ),
      (familyLists ts cpid).add =
          (familyChildNames ts cpid).filter
            (fun n => !pyEndsWith n "_addrev" && !endsAddNum n) ∧
      (familyLists ts cpid).addrev =
          (familyChildNames ts cpid).filter (fun n => pyEndsWith n "_addrev") ∧
      (familyLists ts cpid).extras =
          (familyChildNames ts cpid).filter
            (fun n => !pyEndsWith n "_addrev" && endsAddNum n)) ∧
    (∀ (ts : Transforms) (cpid : ℤ) (n : String), n ∈ familyChildNames ts cpid →
      (n ∈ (familyLists ts cpid).add ∧ n ∉ (familyLists ts cpid).addrev ∧
          n ∉ (familyLists ts cpid).extras) ∨
      (n ∉ (familyLists ts cpid).add ∧ n ∈ (familyLists ts cpid).addrev ∧
          n ∉ (familyLists ts cpid).extras) ∨
      (n ∉ (familyLists ts cpid).add ∧ n ∉ (familyLists ts cpid).addrev ∧
          n ∈ (familyLists ts cpid).extras)) ∧
    (∀ s : String, endsAddNum s = true ↔ AddNumSuffix s) := by
  refine ⟨familyLists_filters, ?_, endsAddNum_iff⟩
  intro ts cpid n hn
  obtain ⟨ha, hr, he⟩ := familyLists_filters ts cpid
  rw [ha, hr, he]
  by_cases h1 : pyEndsWith n "_addrev"
  · right; left
    simp [List.mem_filter, hn, h1]
  · by_cases h2 : endsAddNum n
    · right; right
      simp [List.mem_filter, hn, h1, h2]
    · left
      simp [List.mem_filter, hn, h1, h2]

/-- Witness for C8: in a family with one child of each kind, the
mirrored child is in exactly the mirrored list. -/
theorem c8_accessory_partition_witness :
    ("hat_addrev" ∈ (familyLists addFamilyExample 1).add ∧
        "hat_addrev" ∉ (familyLists addFamilyExample 1).addrev ∧
        "hat_addrev" ∉ (familyLists addFamilyExample 1).extras) ∨
    ("hat_addrev" ∉ (familyLists addFamilyExample 1).add ∧
        "hat_addrev" ∈ (familyLists addFamilyExample 1).addrev ∧
        "hat_addrev" ∉ (familyLists addFamilyExample 1).extras) ∨
    ("hat_addrev" ∉ (familyLists addFamilyExample 1).add ∧
        "hat_addrev" ∉ (familyLists addFamilyExample 1).addrev ∧
        "hat_addrev" ∈ (familyLists addFamilyExample 1).extras) :=
  c8_accessory_partition.2.1 addFamilyExample 1 "hat_addrev" (by decide)

/-- C9: a quad whose rounded destination box or rounded source box has
zero or negative extent in either direction is skipped by
`reconstruct_sprite` without an error: no blit is produced for it, so
the canvas is unchanged by that quad. -/
theorem c9_degenerate_skip :
    ∀ (rect : SRect) (canvasH : ℤ) (tw th : ℚ) (v1 v2 v3 v4 : Vertex),
    ((quadBounds rect canvasH tw th v1 v2 v3 v4).dstR ≤
          (quadBounds rect canvasH tw th v1 v2 v3 v4).dstL ∨
        (quadBounds rect canvasH tw th v1 v2 v3 v4).dstB ≤
          (quadBounds rect canvasH tw th v1 v2 v3 v4).dstT ∨
        (quadBounds rect canvasH tw th v1 v2 v3 v4).srcR ≤
          (quadBounds rect canvasH tw th v1 v2 v3 v4).srcL ∨
        (quadBounds rect canvasH tw th v1 v2 v3 v4).srcB ≤
          (quadBounds rect canvasH tw th v1 v2 v3 v4).srcT) →
    processQuad rect canvasH tw th v1 v2 v3 v4 = none := by
  intro rect canvasH tw th v1 v2 v3 v4 h
  simp only [processQuad, if_pos h]

/-- Witness for C9: a quad with four identical vertices has an empty
destination box and is skipped. -/
theorem c9_degenerate_skip_witness :
    processQuad ⟨0, 0, 4, 4⟩ 4 10 10 ⟨0, 0, 0, 0⟩ ⟨0, 0, 0, 0⟩ ⟨0, 0, 0, 0⟩ ⟨0, 0, 0, 0⟩ =
      none :=
  c9_degenerate_skip ⟨0, 0, 4, 4⟩ 4 10 10 ⟨0, 0, 0, 0⟩ ⟨0, 0, 0, 0⟩ ⟨0, 0, 0, 0⟩ ⟨0, 0, 0, 0⟩
    (Or.inl (by norm_num [quadBounds, listMin, listMax, pyRound]))

/-- C10 counterexample: on a one-byte buffer `iter_quads` raises
(`struct.unpack` demands a buffer of exactly `2 * (n // 2)` bytes)
instead of decoding zero values and yielding zero quads, refuting
totality on arbitrary byte strings. -/
theorem c10_odd_counterexample : iterQuads [(0 : Byte)] = none := by decide

/-- C10 (amended): `iter_quads` decodes even-length buffers only: for
`2 * k` bytes it decodes the `k` little-endian uint16 values and yields
exactly `k / 6` quads, silently ignoring trailing indices short of a
full group of six; an odd-length buffer makes the unpack raise
(`struct.error`), modelled as `none`. -/
theorem c10_decode_totals : ∀ bs : List Byte,
    (bs.length % 2 = 0 →
      unpackIndices bs = some (u16Pairs bs) ∧
      (u16Pairs bs).length = bs.length / 2 ∧
      iterQuads bs = some (quadsOf (u16Pairs bs)) ∧
      (quadsOf (u16Pairs bs)).length = bs.length / 2 / 6) ∧
    (bs.length % 2 ≠ 0 → iterQuads bs = none) := by
  intro bs
  constructor
  · intro h
    refine ⟨by simp [unpackIndices, h], u16Pairs_length bs, ?_, ?_⟩
    · simp [iterQuads, unpackIndices, h]
    · rw [quadsOf_length, u16Pairs_length]
  · intro h
    simp [iterQuads, unpackIndices, h]

/-- Witness for C10: a two-byte buffer decodes to one index and zero
quads. -/
theorem c10_decode_totals_witness :
    iterQuads [(0 : Byte), (1 : Byte)] = some (quadsOf (u16Pairs [(0 : Byte), (1 : Byte)])) :=
  ((c10_decode_totals [(0 : Byte), (1 : Byte)]).1 (by decide)).2.2.1
